import Mathlib

/-!
Verification of the sateko Brainfuck front end and dual-backend engine.

Shallow embedding of `src/token.rs`, `src/ast.rs` and `src/exec.rs`:
every definition mirrors the corresponding Rust item (names kept where
Lean allows).  Machine integers (`u8` cells, `i8`/`i32` LLVM values) are
modelled as `Nat`/`Int` with explicit `% 256` / `% 2^32`.  The external
input/output streams are explicit lists; the fallible parser returns
`Except`.
-/

/-- Mirrors `token.rs` `InputPosition { line: usize, pos: usize }`. -/
structure InputPosition where
  line : Nat
  pos : Nat
deriving DecidableEq, Repr

/-- Mirrors `token.rs` `enum TokenKind`. -/
inductive TokenKind where
  | StartLoop
  | EndLoop
  | IncTape
  | DecTape
  | IncVal
  | DecVal
  | Read
  | Write
  | Comment
deriving DecidableEq, Repr

/-- Mirrors `impl From<char> for TokenKind` in `token.rs`. -/
def TokenKind.fromChar (c : Char) : TokenKind :=
  if c = '[' then .StartLoop
  else if c = ']' then .EndLoop
  else if c = '>' then .IncTape
  else if c = '<' then .DecTape
  else if c = '+' then .IncVal
  else if c = '-' then .DecVal
  else if c = ',' then .Read
  else if c = '.' then .Write
  else .Comment

/-- Mirrors `token.rs` `Token { kind, pos }`. -/
structure Token where
  kind : TokenKind
  pos : InputPosition
deriving DecidableEq, Repr

/-- Rust `str::split_inclusive('\n')`: pieces of the text, each piece kept
with its terminating newline; the final piece may lack one; empty text
gives no pieces. -/
def splitInclusiveNl : List Char → List (List Char)
  | [] => []
  | c :: cs =>
    if c = '\n' then ['\n'] :: splitInclusiveNl cs
    else
      match splitInclusiveNl cs with
      | [] => [[c]]
      | p :: ps => (c :: p) :: ps

/-- The per-piece map of Rust `str::lines`: strip one trailing `'\n'`, then
one trailing `'\r'` (only when a `'\n'` was stripped). -/
def stripLineEnding (l : List Char) : List Char :=
  if l.getLast? = some '\n' then
    let l2 := l.dropLast
    if l2.getLast? = some '\r' then l2.dropLast else l2
  else l

/-- Rust `str::lines()` as used by `tokenize` in `token.rs`. -/
def linesOf (s : List Char) : List (List Char) :=
  (splitInclusiveNl s).map stripLineEnding

/-- Inner loop of `tokenize`: the per-character loop over one line,
with the mutable `pos` counter (incremented before each push). -/
def tokenizeLineAux (line : Nat) (pos : Nat) : List Char → List Token
  | [] => []
  | c :: cs =>
    { kind := TokenKind.fromChar c, pos := { line := line, pos := pos + 1 } } ::
      tokenizeLineAux line (pos + 1) cs

/-- Outer loop of `tokenize`: the per-line loop with the mutable `line`
counter (incremented at each line) and `pos` reset to 0. -/
def tokenizeAux (line : Nat) : List (List Char) → List Token
  | [] => []
  | l :: ls => tokenizeLineAux (line + 1) 0 l ++ tokenizeAux (line + 1) ls

/-- Mirrors `tokenize` in `token.rs`: iterate `s.lines()`, numbering lines
from 1 and positions within each line from 1. -/
def tokenize (s : List Char) : List Token :=
  tokenizeAux 0 (linesOf s)

/-- Spec-side description of the tokenizer output (written from the spec
wording, for comparison with `tokenize`): for line number `i` (1-based)
and column `j` (1-based) within that line, a token classifying the
character at that spot. -/
def tokenizeSpec (s : List Char) : List Token :=
  ((linesOf s).enumFrom 1).flatMap fun p =>
    (p.2.enumFrom 1).map fun q =>
      { kind := TokenKind.fromChar q.2, pos := { line := p.1, pos := q.1 } }

/-- Mirrors `ast.rs` `enum ASTNodeKind`. -/
inductive ASTNodeKind where
  | Loop
  | IncTape
  | DecTape
  | IncVal
  | DecVal
  | Read
  | Write
deriving DecidableEq, Repr

/-- Mirrors `ast.rs` `ASTNode { kind, pos, ops: Option<Vec<ASTNode>> }`. -/
inductive ASTNode where
  | mk (kind : ASTNodeKind) (pos : InputPosition) (ops : Option (List ASTNode))

/-- Field accessor for `ASTNode.kind`. -/
def ASTNode.kind : ASTNode → ASTNodeKind
  | .mk k _ _ => k

/-- Field accessor for `ASTNode.pos`. -/
def ASTNode.pos : ASTNode → InputPosition
  | .mk _ p _ => p

/-- Field accessor for `ASTNode.ops`. -/
def ASTNode.ops : ASTNode → Option (List ASTNode)
  | .mk _ _ o => o

/-- Mirrors `ast.rs` `struct AST(pub Vec<ASTNode>)`. -/
structure AST where
  ops : List ASTNode

/-- Mirrors `ast.rs` `enum ErrorKind` (the parser's error taxonomy). -/
inductive SyntaxErrorKind where
  | UnclosedLoop
  | UnopenedLoop
deriving DecidableEq, Repr

/-- Mirrors `ast.rs` `SyntaxError { pos, kind }`. -/
structure SyntaxError where
  pos : InputPosition
  kind : SyntaxErrorKind
deriving DecidableEq, Repr

/-- Mirrors `try_parse_scalar` in `ast.rs`: a scalar node for the six
instruction tokens, `none` for brackets and comments. -/
def tryParseScalar (t : Token) : Option ASTNode :=
  match t.kind with
  | .IncTape => some (.mk .IncTape t.pos none)
  | .DecTape => some (.mk .DecTape t.pos none)
  | .IncVal => some (.mk .IncVal t.pos none)
  | .DecVal => some (.mk .DecVal t.pos none)
  | .Read => some (.mk .Read t.pos none)
  | .Write => some (.mk .Write t.pos none)
  | _ => none

/-- Mirrors `parse_loop` in `ast.rs`.  The Rust function mutates the
shared token vector; here the remaining tokens are returned, carrying
the bound needed for termination of the enclosing recursion.  `ops` is
the accumulator of the Rust `while let` loop. -/
def parseLoopAux : (ts : List Token) → InputPosition → List ASTNode →
    Except SyntaxError (ASTNode × { r : List Token // r.length ≤ ts.length })
  | [], startPos, _ => .error ⟨startPos, SyntaxErrorKind.UnclosedLoop⟩
  | t :: rest, startPos, ops =>
    match tryParseScalar t with
    | some op =>
      match parseLoopAux rest startPos (ops ++ [op]) with
      | .error e => .error e
      | .ok (node, ⟨r, hr⟩) =>
        .ok (node, ⟨r, by simp only [List.length_cons]; omega⟩)
    | none =>
      if t.kind = TokenKind.StartLoop then
        match parseLoopAux rest t.pos [] with
        | .error e => .error e
        | .ok (node, ⟨r, hr⟩) =>
          match parseLoopAux r startPos (ops ++ [node]) with
          | .error e => .error e
          | .ok (node2, ⟨r2, hr2⟩) =>
            .ok (node2, ⟨r2, by simp only [List.length_cons]; omega⟩)
      else if t.kind = TokenKind.EndLoop then
        .ok (⟨ASTNodeKind.Loop, startPos, some ops⟩,
             ⟨rest, by simp only [List.length_cons]; omega⟩)
      else
        match parseLoopAux rest startPos ops with
        | .error e => .error e
        | .ok (node, ⟨r, hr⟩) =>
          .ok (node, ⟨r, by simp only [List.length_cons]; omega⟩)
termination_by ts _ _ => ts.length
decreasing_by all_goals (simp only [List.length_cons]; omega)

/-- `parse_loop` with the termination bookkeeping erased: the parsed
loop node and the tokens left after its closing bracket. -/
def parseLoop (ts : List Token) (startPos : InputPosition) (ops : List ASTNode) :
    Except SyntaxError (ASTNode × List Token) :=
  match parseLoopAux ts startPos ops with
  | .error e => .error e
  | .ok (node, r) => .ok (node, r.val)

/-- Mirrors the `while let` loop of `AST::from_tokens` in `ast.rs`,
with `ops` as the accumulator. -/
def fromTokensAux : List Token → List ASTNode → Except SyntaxError AST
  | [], ops => .ok ⟨ops⟩
  | t :: rest, ops =>
    match tryParseScalar t with
    | some op => fromTokensAux rest (ops ++ [op])
    | none =>
      if t.kind = TokenKind.StartLoop then
        match parseLoopAux rest t.pos [] with
        | .error e => .error e
        | .ok (node, ⟨r, hr⟩) => fromTokensAux r (ops ++ [node])
      else if t.kind = TokenKind.EndLoop then
        .error ⟨t.pos, SyntaxErrorKind.UnopenedLoop⟩
      else fromTokensAux rest ops
termination_by ts _ => ts.length
decreasing_by all_goals (simp only [List.length_cons]; omega)

/-- Mirrors `AST::from_tokens` in `ast.rs`. -/
def AST.fromTokens (ts : List Token) : Except SyntaxError AST :=
  fromTokensAux ts []

/-- Mirrors `Error::description` for `SyntaxError` in `ast.rs`. -/
def SyntaxError.description (e : SyntaxError) : String :=
  match e.kind with
  | .UnopenedLoop => "Unopened loop"
  | .UnclosedLoop => "Unclosed loop"

/-- Mirrors `impl fmt::Display for SyntaxError` in `ast.rs`:
the message followed by the bracketed line and column. -/
def SyntaxError.render (e : SyntaxError) : String :=
  e.description ++ " (" ++ Nat.repr e.pos.line ++ ":" ++ Nat.repr e.pos.pos ++ ")"

/-- Bracket scan over a token sequence: the stack of positions of the
currently open `StartLoop` brackets (most recent first); `none` when an
`EndLoop` arrives with no bracket open.  Used to state which token
sequences are balanced and which bracket the parser reports. -/
def openStack : List Token → List InputPosition → Option (List InputPosition)
  | [], st => some st
  | t :: ts, st =>
    if t.kind = TokenKind.StartLoop then openStack ts (t.pos :: st)
    else if t.kind = TokenKind.EndLoop then
      match st with
      | [] => none
      | _ :: st2 => openStack ts st2
    else openStack ts st

/-- A token sequence has balanced brackets: the scan never pops an empty
stack and ends with no bracket open. -/
def balancedTokens (ts : List Token) : Prop :=
  openStack ts [] = some []

instance (ts : List Token) : Decidable (balancedTokens ts) := by
  unfold balancedTokens; infer_instance

mutual
/-- In-order sequence of scalar nodes of a tree node: a node without a
child list stands for itself, a loop wrapper is dropped and its body
flattened. -/
def flattenNode : ASTNode → List ASTNode
  | .mk kind pos none => [.mk kind pos none]
  | .mk _ _ (some l) => flattenList l

/-- In-order sequence of scalar nodes of a node list. -/
def flattenList : List ASTNode → List ASTNode
  | [] => []
  | n :: ns => flattenNode n ++ flattenList ns
end

mutual
/-- The shape invariant of claim C10: `ops` is `some` exactly on `Loop`
nodes, recursively. -/
def wfNode : ASTNode → Bool
  | .mk kind _ none => (match kind with | .Loop => false | _ => true)
  | .mk kind _ (some l) => (match kind with | .Loop => true | _ => false) && wfList l

/-- `wfNode` on every node of a list. -/
def wfList : List ASTNode → Bool
  | [] => true
  | n :: ns => wfNode n && wfList ns
end

/-- Mirrors `exec.rs` `Tape { cells: Vec<u8>, pos: usize }`; cells are
byte values held as `Nat` (< 256). -/
structure Tape where
  cells : List Nat
  pos : Nat
deriving DecidableEq, Repr

/-- Mirrors `Tape::with_size` in `exec.rs`. -/
def Tape.withSize (size : Nat) : Tape :=
  { cells := List.replicate size 0, pos := 0 }

/-- Mirrors `exec.rs` `enum ErrorKind` (the runtime error taxonomy). -/
inductive RuntimeErrorKind where
  | OffTapeStart
  | OffTapeEnd (len : Nat)
  | IOError
deriving DecidableEq, Repr

/-- Mirrors `exec.rs` `RuntimeError { kind, pos }`. -/
structure RuntimeError where
  kind : RuntimeErrorKind
  pos : InputPosition
deriving DecidableEq, Repr

/-- Mirrors `Error::description` for `RuntimeError` in `exec.rs`. -/
def RuntimeError.description (e : RuntimeError) : String :=
  match e.kind with
  | .OffTapeStart => "Tried to move past tape beginning"
  | .OffTapeEnd _ => "Tried to move past end of tape"
  | .IOError => "I/O failure"

/-- Mirrors `impl fmt::Display for RuntimeError` in `exec.rs`.  The Rust
body formats `self` (not `self.description()`) with `Display` again, so
rendering recurses into itself; the fuel counts the remaining recursion
budget and `none` is a rendering that has not terminated. -/
def RuntimeError.renderFuel : Nat → RuntimeError → Option String
  | 0, _ => none
  | fuel + 1, e =>
    match RuntimeError.renderFuel fuel e with
    | none => none
    | some s =>
      some (s ++ " (" ++ Nat.repr e.pos.line ++ ":" ++ Nat.repr e.pos.pos ++ ")")

/-- Mirrors the free function `exec_loop` in `exec.rs` (lines 200-217):
`while tape.cells[tape.pos] != 0 { ... }` whose only body is the
(verbosity-gated) trace print — the `exec_ops` call on the loop body is
commented out, so no state changes inside the loop.  Fuel bounds the
number of condition checks; `none` is an execution that has not
terminated within the fuel. -/
def execLoop (fuel : Nat) (op : ASTNode) (tape : Tape) :
    Option (Except RuntimeError Tape) :=
  match fuel with
  | 0 => none
  | fuel + 1 =>
    if tape.cells.getD tape.pos 0 ≠ 0 then execLoop fuel op tape
    else some (.ok tape)

/-- Outcome of the one-byte `io::stdin().read(&mut buf)` call in the free
function `read` of `exec.rs`: `Ok(0)` (end of stream), `Ok(n)` with a
byte read, or `Err(_)`. -/
inductive ReadOutcome where
  | eof
  | byte (b : Nat)
  | ioFailure
deriving DecidableEq, Repr

/-- Mirrors the free function `read` in `exec.rs` (lines 219-232). -/
def read (op : ASTNode) (tape : Tape) (outcome : ReadOutcome) :
    Except RuntimeError Tape :=
  match outcome with
  | .eof => .ok tape
  | .byte b => .ok { cells := tape.cells.set tape.pos b, pos := tape.pos }
  | .ioFailure => .error { kind := .IOError, pos := op.pos }

/-- Interpreter state for the reference tree interpreter: the tape plus
the explicit standard input and output byte streams. -/
structure InterpState where
  cells : List Nat
  pos : Nat
  inp : List Nat
  out : List Nat
deriving DecidableEq, Repr

mutual
/-- Modelled from the spec: the tree interpreter entry points `exec` and
`exec_ops` and the scalar operations (`inc_tape`, `dec_tape`, `inc_val`,
`dec_val` as free functions) referenced by the tests in `exec.rs` are
absent from `src/`; semantics follow spec section 4.3 — depth-first
in-order walk, loop condition re-read before every iteration, 8-bit
wraparound cells, bounds-checked pointer moves, `Read` leaving the cell
unchanged at end of stream, `Write` appending the cell to the output.
Fuel bounds loop unfoldings; `none` means not terminated in the fuel. -/
def specExecNode : Nat → ASTNode → InterpState → Option (Except RuntimeError InterpState)
  | 0, _, _ => none
  | fuel + 1, node, st =>
    match node with
    | .mk .Loop _ body =>
      if st.cells.getD st.pos 0 ≠ 0 then
        match specExecOps fuel (body.getD []) st with
        | none => none
        | some (.error e) => some (.error e)
        | some (.ok st2) => specExecNode fuel node st2
      else some (.ok st)
    | .mk .IncTape p _ =>
      if st.pos + 1 < st.cells.length then
        some (.ok { st with pos := st.pos + 1 })
      else some (.error ⟨.OffTapeEnd st.cells.length, p⟩)
    | .mk .DecTape p _ =>
      if st.pos = 0 then some (.error ⟨.OffTapeStart, p⟩)
      else some (.ok { st with pos := st.pos - 1 })
    | .mk .IncVal _ _ =>
      some (.ok { st with cells := st.cells.set st.pos ((st.cells.getD st.pos 0 + 1) % 256) })
    | .mk .DecVal _ _ =>
      some (.ok { st with cells := st.cells.set st.pos ((st.cells.getD st.pos 0 + 255) % 256) })
    | .mk .Read _ _ =>
      match st.inp with
      | [] => some (.ok st)
      | b :: bs => some (.ok { st with cells := st.cells.set st.pos b, inp := bs })
    | .mk .Write _ _ =>
      some (.ok { st with out := st.out ++ [st.cells.getD st.pos 0] })

/-- Modelled from the spec: left-to-right execution of a node sequence,
halting on the first error (spec sections 4.3 and 7). -/
def specExecOps : Nat → List ASTNode → InterpState → Option (Except RuntimeError InterpState)
  | 0, _, _ => none
  | _ + 1, [], st => some (.ok st)
  | fuel + 1, n :: ns, st =>
    match specExecNode fuel n st with
    | none => none
    | some (.error e) => some (.error e)
    | some (.ok st2) => specExecOps fuel ns st2
end

/-- The arithmetic value expressions the `IrBuilder` methods in `exec.rs`
build before storing: literal one (as `i8` or `i32`), a load of the
pointer local (`active_cell`), a load of the tape cell at an index, and
width-tagged add/sub in the operand order the source passes to
`build_int_add` / `build_int_sub`. -/
inductive IntVal where
  | const8One
  | const32One
  | loadPtr
  | loadCell (idx : IntVal)
  | add8 (a b : IntVal)
  | sub8 (a b : IntVal)
  | add32 (a b : IntVal)
  | sub32 (a b : IntVal)
deriving DecidableEq, Repr

/-- The store/return instructions the `IrBuilder` methods emit:
a store to the pointer local, a store to the tape cell at an index, and
the final `build_return` of zero. -/
inductive LowInstr where
  | storePtrVar (v : IntVal)
  | storeCell (idx : IntVal) (v : IntVal)
  | retZero
deriving DecidableEq, Repr

/-- State of the `IrBuilder` in `exec.rs`: how many basic blocks have
been appended to the function (`create` appends the single `entry`
block) and the instructions emitted into the block the builder is
positioned at. -/
structure IrState where
  numBlocks : Nat
  instrs : List LowInstr
deriving DecidableEq, Repr

namespace IrBuilder

/-- Append an instruction at the builder's current position. -/
def emit (st : IrState) (i : LowInstr) : IrState :=
  { st with instrs := st.instrs ++ [i] }

/-- Builder state after `IrBuilder::create` in `exec.rs`: one basic block
(`entry`) appended, no body instructions emitted yet (the allocas and
the zero-store initialising `active_cell` are the machine's initial
state below). -/
def initState : IrState :=
  { numBlocks := 1, instrs := [] }

/-- Mirrors `IrBuilder::exec_loop` in `exec.rs` (lines 120-122): the body
is only a `// TODO` comment — no block is appended, nothing is emitted. -/
def execLoop (st : IrState) (_op : ASTNode) : IrState :=
  st

/-- Mirrors `IrBuilder::inc_tape` in `exec.rs`: load `active_cell`, add
the `i32` literal one as `1 + value`, store back. -/
def incTape (st : IrState) (_op : ASTNode) : IrState :=
  emit st (.storePtrVar (.add32 .const32One .loadPtr))

/-- Mirrors `IrBuilder::dec_tape` in `exec.rs`: load `active_cell`,
`build_int_sub(one, value)` — literal one minus the loaded value — and
store back. -/
def decTape (st : IrState) (_op : ASTNode) : IrState :=
  emit st (.storePtrVar (.sub32 .const32One .loadPtr))

/-- Mirrors `IrBuilder::inc_val` in `exec.rs` (lines 143-152): load the
pointer, load the tape cell it addresses, add the `i8` literal one as
`1 + cell`, store back to the same cell. -/
def incVal (st : IrState) (_op : ASTNode) : IrState :=
  emit st (.storeCell .loadPtr (.add8 .const8One (.loadCell .loadPtr)))

/-- Mirrors `IrBuilder::dec_val` in `exec.rs` (lines 154-163): load the
pointer, load the tape cell it addresses, `build_int_sub(one, cell)` —
literal one minus the loaded cell — store back to the same cell. -/
def decVal (st : IrState) (_op : ASTNode) : IrState :=
  emit st (.storeCell .loadPtr (.sub8 .const8One (.loadCell .loadPtr)))

/-- Mirrors `IrBuilder::read` in `exec.rs`: the whole body is commented
out, nothing is emitted. -/
def readOp (st : IrState) (_op : ASTNode) : IrState :=
  st

/-- Mirrors `IrBuilder::write` in `exec.rs`: the whole body is commented
out, nothing is emitted. -/
def writeOp (st : IrState) (_op : ASTNode) : IrState :=
  st

/-- Mirrors `IrBuilder::exec_op` in `exec.rs`: dispatch on the node kind. -/
def execOp (st : IrState) (op : ASTNode) : IrState :=
  match op.kind with
  | .Loop => execLoop st op
  | .IncTape => incTape st op
  | .DecTape => decTape st op
  | .IncVal => incVal st op
  | .DecVal => decVal st op
  | .Read => readOp st op
  | .Write => writeOp st op

/-- Mirrors `IrBuilder::build_from_ast` in `exec.rs`: lower every
top-level node in order, then return zero. -/
def buildFromAst (ast : AST) : IrState :=
  emit (ast.ops.foldl execOp initState) .retZero

end IrBuilder

/-- Machine state for the reference execution of the lowered program:
the tape bytes and the `active_cell` pointer local, as the spec's
downstream backend would run them (tape zero-initialised, pointer
initialised to zero by the store in `create`). -/
structure LowMachine where
  tape : List Int
  ptr : Int
deriving DecidableEq, Repr

/-- Value of an `IntVal` expression on a machine: loads read the pointer
local or the addressed tape cell, `i8` arithmetic wraps modulo 256 and
`i32` arithmetic modulo 2^32 (unsigned views of the stored bits). -/
def evalIntVal (m : LowMachine) : IntVal → Int
  | .const8One => 1
  | .const32One => 1
  | .loadPtr => m.ptr
  | .loadCell idx => m.tape.getD (evalIntVal m idx).toNat 0
  | .add8 a b => (evalIntVal m a + evalIntVal m b) % 256
  | .sub8 a b => (evalIntVal m a - evalIntVal m b) % 256
  | .add32 a b => (evalIntVal m a + evalIntVal m b) % 4294967296
  | .sub32 a b => (evalIntVal m a - evalIntVal m b) % 4294967296

/-- One lowered instruction on the machine. -/
def runInstr (m : LowMachine) : LowInstr → LowMachine
  | .storePtrVar v => { m with ptr := evalIntVal m v }
  | .storeCell idx v => { m with tape := m.tape.set (evalIntVal m idx).toNat (evalIntVal m v) }
  | .retZero => m

/-- Reference execution of an emitted instruction sequence, in order. -/
def runInstrs (m : LowMachine) (l : List LowInstr) : LowMachine :=
  l.foldl runInstr m

/-! ## Tokenizer (claim C5) -/

theorem tokenizeLineAux_eq (line : Nat) (l : List Char) : ∀ pos : Nat,
    tokenizeLineAux line pos l =
      (l.enumFrom (pos + 1)).map fun q =>
        { kind := TokenKind.fromChar q.2, pos := { line := line, pos := q.1 } } := by
  induction l with
  | nil => intro pos; rfl
  | cons c cs ih =>
    intro pos
    simp only [tokenizeLineAux, List.enumFrom_cons, List.map_cons, ih (pos + 1)]

theorem tokenizeAux_eq (ls : List (List Char)) : ∀ line : Nat,
    tokenizeAux line ls =
      ((ls.enumFrom (line + 1)).flatMap fun p =>
        (p.2.enumFrom 1).map fun q =>
          { kind := TokenKind.fromChar q.2, pos := { line := p.1, pos := q.1 } }) := by
  induction ls with
  | nil => intro line; rfl
  | cons l ls ih =>
    intro line
    simp only [tokenizeAux, List.enumFrom_cons, List.flatMap_cons, ih (line + 1)]
    rw [tokenizeLineAux_eq (line + 1) l 0]

/-- C5 (counterexample): the tokenizer does not produce one token per
input character — a lone newline character yields no token at all. -/
theorem c5_newline_drops_token :
    (tokenize ['\n']).length ≠ ([ '\n' ] : List Char).length := by
  decide

/-- C5 (amended): for every input text, the tokenizer produces exactly one
token per character of each line (line terminators themselves — the
newline, and a carriage return stripped with it — produce no token), in
source order, with lines numbered from 1 and the column restarting at 1
in each line; no remaining character fails to tokenize and none is
dropped. -/
theorem c5_tokenize_one_token_per_line_char (s : List Char) :
    tokenize s = tokenizeSpec s := by
  unfold tokenize tokenizeSpec
  exact tokenizeAux_eq (linesOf s) 0

/-! ## Error rendering (claim C9) -/

/-- C9: rendering a `SyntaxError` terminates and yields
`"<message> (<line>:<column>)"`, but rendering a `RuntimeError` never
terminates: the `Display` impl formats `self` with `Display` again, so no
amount of fuel produces a string, and no string-valued rendering can
satisfy the recursive format equation at all. -/
theorem c9_error_rendering :
    SyntaxError.render ⟨⟨3, 4⟩, .UnclosedLoop⟩ = "Unclosed loop (3:4)"
    ∧ (∀ fuel e, RuntimeError.renderFuel fuel e = none)
    ∧ (∀ (f : RuntimeError → String) (e : RuntimeError),
        f e ≠ f e ++ " (" ++ Nat.repr e.pos.line ++ ":" ++ Nat.repr e.pos.pos ++ ")") := by
  refine ⟨by decide, ?_, ?_⟩
  · intro fuel
    induction fuel with
    | zero => intro e; rfl
    | succ n ih => intro e; simp only [RuntimeError.renderFuel, ih e]
  · intro f e h
    have hl := congrArg String.length h
    simp only [String.length_append] at hl
    have h1 : (" (").length = 2 := rfl
    have h2 : (":").length = 1 := rfl
    omega

/-! ## CFG lowering of loops (claim C3) -/

/-- C3: `IrBuilder::exec_loop` is a `TODO` stub — lowering a `Loop` node
creates no basic block at all (and emits nothing), not the three
header/body/exit blocks with branch wiring that the claim describes; a
whole program consisting of one empty loop still has only the single
`entry` block. -/
theorem c3_loop_lowers_to_no_blocks :
    (∀ st op, IrBuilder.execLoop st op = st)
    ∧ (∀ st p b, IrBuilder.execOp st (.mk .Loop p b) = st)
    ∧ (IrBuilder.buildFromAst ⟨[.mk .Loop ⟨1, 1⟩ (some [])]⟩).numBlocks = 1 := by
  exact ⟨fun _ _ => rfl, fun _ _ _ => rfl, rfl⟩

/-! ## CFG lowering of cell mutation (claim C4) -/

/-- C4: `inc_val` lowers to load pointer, load cell, add literal one,
store back — effect `(cell + 1) % 256` as claimed; but `dec_val` passes
the operands of `build_int_sub` reversed, computing `1 - cell` instead of
`cell - 1`: on a zero cell the lowered decrement stores 1, where the
claimed effect `(cell - 1) mod 256` is 255. -/
theorem c4_inc_dec_lowering :
    (∀ c : Int,
      (runInstrs ⟨[c], 0⟩ (IrBuilder.incVal IrBuilder.initState (.mk .IncVal ⟨1, 1⟩ none)).instrs).tape
        = [(c + 1) % 256])
    ∧ (∀ c : Int,
      (runInstrs ⟨[c], 0⟩ (IrBuilder.decVal IrBuilder.initState (.mk .DecVal ⟨1, 1⟩ none)).instrs).tape
        = [(1 - c) % 256])
    ∧ (runInstrs ⟨[(0 : Int)], 0⟩ (IrBuilder.decVal IrBuilder.initState (.mk .DecVal ⟨1, 1⟩ none)).instrs).tape
        = [1]
    ∧ ((0 : Int) - 1) % 256 = 255 := by
  refine ⟨?_, ?_, by decide, by decide⟩
  · intro c
    simp only [IrBuilder.incVal, IrBuilder.emit, IrBuilder.initState, runInstrs,
      List.foldl_cons, List.foldl_nil, runInstr, evalIntVal, List.nil_append]
    norm_num [List.getD, Int.add_comm]
  · intro c
    simp only [IrBuilder.decVal, IrBuilder.emit, IrBuilder.initState, runInstrs,
      List.foldl_cons, List.foldl_nil, runInstr, evalIntVal, List.nil_append]
    norm_num [List.getD]

/-! ## Backend equivalence (claim C2) -/

/-- C2: the tree interpreter and the CFG lowering do not agree.  On the
one-instruction program `-` (a single `Decrement`) with empty input, the
tree interpreter (spec-modelled, since `exec`/`exec_ops` are absent from
`src/`) wraps the zero cell to 255, while the reference execution of the
lowered program stores `1 - 0 = 1` into the cell (reversed subtraction),
so the final tape contents differ. -/
theorem c2_backends_disagree :
    specExecOps 2 [.mk .DecVal ⟨1, 1⟩ none] ⟨[0], 0, [], []⟩
      = some (.ok ⟨[255], 0, [], []⟩)
    ∧ (runInstrs ⟨[0], 0⟩ (IrBuilder.buildFromAst ⟨[.mk .DecVal ⟨1, 1⟩ none]⟩).instrs).tape
      = [(1 : Int)]
    ∧ ((255 : Nat) ≠ (1 : Int).toNat) := by
  exact ⟨rfl, rfl, by decide⟩

/-! ## Tree interpreter loop (claim C1) -/

/-- C1: the tree interpreter's `exec_loop` checks the cell before every
iteration (a zero cell exits at once, as the claim says), but the call
executing the loop body is commented out, so on a nonzero cell the loop
body never runs and the loop never terminates — against the claim (and
the spec-modelled interpreter, which zeroes the cell and stops) that the
body runs until the cell becomes zero. -/
theorem c1_loop_body_never_runs :
    (∀ fuel, execLoop fuel (.mk .Loop ⟨1, 1⟩ (some [.mk .DecVal ⟨1, 2⟩ none])) ⟨[1], 0⟩ = none)
    ∧ execLoop 1 (.mk .Loop ⟨1, 1⟩ (some [.mk .DecVal ⟨1, 2⟩ none])) ⟨[0], 0⟩
        = some (.ok ⟨[0], 0⟩)
    ∧ specExecNode 3 (.mk .Loop ⟨1, 1⟩ (some [.mk .DecVal ⟨1, 2⟩ none])) ⟨[1], 0, [], []⟩
        = some (.ok ⟨[0], 0, [], []⟩) := by
  refine ⟨?_, rfl, rfl⟩
  intro fuel
  induction fuel with
  | zero => rfl
  | succ n ih => simpa only [execLoop, List.getD] using ih

/-! ## Read semantics (claim C8) -/

/-- C8: the free function `read` leaves the whole tape (cells and
pointer) unchanged at end of stream, stores an available byte into the
current cell leaving every other cell and the pointer unchanged, and
turns any other I/O failure into `IOError` at the instruction's
position. -/
theorem c8_read_semantics (op : ASTNode) (tape : Tape) (b : Nat)
    (h : tape.pos < tape.cells.length) :
    read op tape .eof = .ok tape
    ∧ read op tape (.byte b) = .ok ⟨tape.cells.set tape.pos b, tape.pos⟩
    ∧ (tape.cells.set tape.pos b).getD tape.pos 0 = b
    ∧ (∀ j, j ≠ tape.pos → (tape.cells.set tape.pos b).getD j 0 = tape.cells.getD j 0)
    ∧ (tape.cells.set tape.pos b).length = tape.cells.length
    ∧ read op tape .ioFailure = .error ⟨.IOError, op.pos⟩ := by
  refine ⟨rfl, rfl, ?_, ?_, List.length_set _ _ _, rfl⟩
  · rw [List.getD_eq_getElem?_getD, List.getElem?_set_self h]
    rfl
  · intro j hj
    rw [List.getD_eq_getElem?_getD, List.getElem?_set_ne (fun he => hj he.symm),
      ← List.getD_eq_getElem?_getD]

/-- Witness for C8 at a concrete read instruction and tape. -/
theorem c8_read_semantics_witness :
    read (.mk .Read ⟨1, 1⟩ none) ⟨[7, 8], 0⟩ .eof = .ok ⟨[7, 8], 0⟩
    ∧ read (.mk .Read ⟨1, 1⟩ none) ⟨[7, 8], 0⟩ (.byte 65) = .ok ⟨([7, 8] : List Nat).set 0 65, 0⟩
    ∧ (([7, 8] : List Nat).set 0 65).getD 0 0 = 65
    ∧ (∀ j, j ≠ 0 → (([7, 8] : List Nat).set 0 65).getD j 0 = ([7, 8] : List Nat).getD j 0)
    ∧ (([7, 8] : List Nat).set 0 65).length = ([7, 8] : List Nat).length
    ∧ read (.mk .Read ⟨1, 1⟩ none) ⟨[7, 8], 0⟩ .ioFailure
        = .error ⟨.IOError, ⟨1, 1⟩⟩ :=
  c8_read_semantics (.mk .Read ⟨1, 1⟩ none) ⟨[7, 8], 0⟩ 65 (by decide)

/-! ## Parser step lemmas

Defining equations of `parseLoop` and `fromTokensAux` with the
termination bookkeeping of `parseLoopAux` discharged once and for all. -/

theorem tryParseScalar_none {t : Token}
    (h : t.kind = TokenKind.StartLoop ∨ t.kind = TokenKind.EndLoop ∨
      t.kind = TokenKind.Comment) :
    tryParseScalar t = none := by
  rcases t with ⟨k, p⟩
  rcases h with h | h | h <;> (obtain rfl := h; rfl)

theorem parseLoop_nil (sp : InputPosition) (acc : List ASTNode) :
    parseLoop [] sp acc = .error ⟨sp, SyntaxErrorKind.UnclosedLoop⟩ := by
  unfold parseLoop
  rw [parseLoopAux]

theorem parseLoop_scalar {t : Token} {op : ASTNode} (h : tryParseScalar t = some op)
    (rest : List Token) (sp : InputPosition) (acc : List ASTNode) :
    parseLoop (t :: rest) sp acc = parseLoop rest sp (acc ++ [op]) := by
  unfold parseLoop
  rw [parseLoopAux]
  simp only [h]
  rcases h2 : parseLoopAux rest sp (acc ++ [op]) with e | ⟨n, ⟨r, hr⟩⟩ <;> simp

theorem parseLoop_start_err {t : Token} (hk : t.kind = TokenKind.StartLoop)
    {e : SyntaxError} {rest : List Token}
    (h : parseLoop rest t.pos [] = .error e) (sp : InputPosition) (acc : List ASTNode) :
    parseLoop (t :: rest) sp acc = .error e := by
  unfold parseLoop at h ⊢
  rw [parseLoopAux]
  simp only [tryParseScalar_none (Or.inl hk), hk, if_true]
  rcases h2 : parseLoopAux rest t.pos [] with e' | ⟨n, ⟨r, hr⟩⟩ <;> rw [h2] at h
  · simpa using h
  · simp at h

theorem parseLoop_start_ok {t : Token} (hk : t.kind = TokenKind.StartLoop)
    {node : ASTNode} {r rest : List Token}
    (h : parseLoop rest t.pos [] = .ok (node, r)) (sp : InputPosition) (acc : List ASTNode) :
    parseLoop (t :: rest) sp acc = parseLoop r sp (acc ++ [node]) := by
  unfold parseLoop at h ⊢
  rw [parseLoopAux]
  simp only [tryParseScalar_none (Or.inl hk), hk, if_true]
  rcases h2 : parseLoopAux rest t.pos [] with e' | ⟨n, ⟨r', hr'⟩⟩ <;> rw [h2] at h
  · simp at h
  · simp only [Except.ok.injEq, Prod.mk.injEq] at h
    obtain ⟨rfl, rfl⟩ := h
    rcases h3 : parseLoopAux r' sp (acc ++ [n]) with e'' | ⟨n2, ⟨r2, hr2⟩⟩ <;> simp [h3]

theorem parseLoop_end {t : Token} (hk : t.kind = TokenKind.EndLoop)
    (rest : List Token) (sp : InputPosition) (acc : List ASTNode) :
    parseLoop (t :: rest) sp acc = .ok (.mk .Loop sp (some acc), rest) := by
  unfold parseLoop
  rw [parseLoopAux]
  simp [tryParseScalar_none (Or.inr (Or.inl hk)), hk]

theorem parseLoop_comment {t : Token} (hk : t.kind = TokenKind.Comment)
    (rest : List Token) (sp : InputPosition) (acc : List ASTNode) :
    parseLoop (t :: rest) sp acc = parseLoop rest sp acc := by
  have hs : ¬ t.kind = TokenKind.StartLoop := by rw [hk]; intro h; cases h
  have he : ¬ t.kind = TokenKind.EndLoop := by rw [hk]; intro h; cases h
  unfold parseLoop
  rw [parseLoopAux]
  simp only [tryParseScalar_none (Or.inr (Or.inr hk)), hs, he, if_false]
  rcases h2 : parseLoopAux rest sp acc with e | ⟨n, ⟨r, hr⟩⟩ <;> simp

theorem parseLoop_rest_length {ts : List Token} {sp : InputPosition} {acc : List ASTNode}
    {node : ASTNode} {r : List Token} (h : parseLoop ts sp acc = .ok (node, r)) :
    r.length ≤ ts.length := by
  unfold parseLoop at h
  rcases h2 : parseLoopAux ts sp acc with e | ⟨n, ⟨r', hr'⟩⟩ <;> rw [h2] at h
  · simp at h
  · simp only [Except.ok.injEq, Prod.mk.injEq] at h
    obtain ⟨rfl, rfl⟩ := h
    exact hr'

theorem fromTokensAux_nil (acc : List ASTNode) :
    fromTokensAux [] acc = .ok ⟨acc⟩ := by
  rw [fromTokensAux]

theorem fromTokensAux_scalar {t : Token} {op : ASTNode} (h : tryParseScalar t = some op)
    (rest : List Token) (acc : List ASTNode) :
    fromTokensAux (t :: rest) acc = fromTokensAux rest (acc ++ [op]) := by
  rw [fromTokensAux]
  simp only [h]

theorem fromTokensAux_start_err {t : Token} (hk : t.kind = TokenKind.StartLoop)
    {e : SyntaxError} {rest : List Token}
    (h : parseLoop rest t.pos [] = .error e) (acc : List ASTNode) :
    fromTokensAux (t :: rest) acc = .error e := by
  unfold parseLoop at h
  rw [fromTokensAux]
  simp only [tryParseScalar_none (Or.inl hk), hk, if_true]
  rcases h2 : parseLoopAux rest t.pos [] with e' | ⟨n, ⟨r, hr⟩⟩ <;> rw [h2] at h
  · simpa using h
  · simp at h

theorem fromTokensAux_start_ok {t : Token} (hk : t.kind = TokenKind.StartLoop)
    {node : ASTNode} {r rest : List Token}
    (h : parseLoop rest t.pos [] = .ok (node, r)) (acc : List ASTNode) :
    fromTokensAux (t :: rest) acc = fromTokensAux r (acc ++ [node]) := by
  unfold parseLoop at h
  rw [fromTokensAux]
  simp only [tryParseScalar_none (Or.inl hk), hk, if_true]
  rcases h2 : parseLoopAux rest t.pos [] with e' | ⟨n, ⟨r', hr'⟩⟩ <;> rw [h2] at h
  · simp at h
  · simp only [Except.ok.injEq, Prod.mk.injEq] at h
    obtain ⟨rfl, rfl⟩ := h
    rfl

theorem fromTokensAux_end {t : Token} (hk : t.kind = TokenKind.EndLoop)
    (rest : List Token) (acc : List ASTNode) :
    fromTokensAux (t :: rest) acc = .error ⟨t.pos, SyntaxErrorKind.UnopenedLoop⟩ := by
  rw [fromTokensAux]
  simp [tryParseScalar_none (Or.inr (Or.inl hk)), hk]

theorem fromTokensAux_comment {t : Token} (hk : t.kind = TokenKind.Comment)
    (rest : List Token) (acc : List ASTNode) :
    fromTokensAux (t :: rest) acc = fromTokensAux rest acc := by
  have hs : ¬ t.kind = TokenKind.StartLoop := by rw [hk]; intro h; cases h
  have he : ¬ t.kind = TokenKind.EndLoop := by rw [hk]; intro h; cases h
  rw [fromTokensAux]
  simp only [tryParseScalar_none (Or.inr (Or.inr hk)), hs, he, if_false]

/-! ## Bracket scan lemmas -/

theorem tryParseScalar_some_props {t : Token} {op : ASTNode} (h : tryParseScalar t = some op) :
    t.kind ≠ TokenKind.StartLoop ∧ t.kind ≠ TokenKind.EndLoop
    ∧ flattenNode op = [op] ∧ wfNode op = true := by
  rcases t with ⟨k, p⟩
  cases k <;>
    first
    | (simp only [tryParseScalar, Option.some.injEq] at h
       subst h
       exact ⟨by simp, by simp, rfl, rfl⟩)
    | (simp only [tryParseScalar] at h; cases h)

theorem kind_comment_of_none {t : Token} (h : tryParseScalar t = none)
    (hs : t.kind ≠ TokenKind.StartLoop) (he : t.kind ≠ TokenKind.EndLoop) :
    t.kind = TokenKind.Comment := by
  rcases t with ⟨k, p⟩
  cases k <;> simp_all [tryParseScalar]

theorem openStack_start {t : Token} (hs : t.kind = TokenKind.StartLoop)
    (ts : List Token) (st : List InputPosition) :
    openStack (t :: ts) st = openStack ts (t.pos :: st) := by
  simp [openStack, hs]

theorem openStack_end_nil {t : Token} (he : t.kind = TokenKind.EndLoop) (ts : List Token) :
    openStack (t :: ts) [] = none := by
  have hs : t.kind ≠ TokenKind.StartLoop := by rw [he]; intro h; cases h
  simp [openStack, hs, he]

theorem openStack_end_cons {t : Token} (he : t.kind = TokenKind.EndLoop)
    (ts : List Token) (p : InputPosition) (st : List InputPosition) :
    openStack (t :: ts) (p :: st) = openStack ts st := by
  have hs : t.kind ≠ TokenKind.StartLoop := by rw [he]; intro h; cases h
  simp [openStack, hs, he]

theorem openStack_other {t : Token} (hs : t.kind ≠ TokenKind.StartLoop)
    (he : t.kind ≠ TokenKind.EndLoop) (ts : List Token) (st : List InputPosition) :
    openStack (t :: ts) st = openStack ts st := by
  simp [openStack, hs, he]

theorem openStack_mono : ∀ (xs : List Token) (st1 st2 stf : List InputPosition),
    openStack xs st1 = some stf → openStack xs (st1 ++ st2) = some (stf ++ st2) := by
  intro xs
  induction xs with
  | nil =>
    intro st1 st2 stf h
    simp only [openStack, Option.some.injEq] at h
    subst h
    rfl
  | cons t ts ih =>
    intro st1 st2 stf h
    by_cases hs : t.kind = TokenKind.StartLoop
    · rw [openStack_start hs] at h
      rw [openStack_start hs, ← List.cons_append]
      exact ih _ _ _ h
    · by_cases he : t.kind = TokenKind.EndLoop
      · match st1 with
        | [] => rw [openStack_end_nil he] at h; cases h
        | p :: st1' =>
          rw [openStack_end_cons he] at h
          rw [List.cons_append, openStack_end_cons he]
          exact ih _ _ _ h
      · rw [openStack_other hs he] at h
        rw [openStack_other hs he]
        exact ih _ _ _ h

theorem openStack_append : ∀ (xs ys : List Token) (st : List InputPosition),
    openStack (xs ++ ys) st = Option.bind (openStack xs st) (openStack ys) := by
  intro xs
  induction xs with
  | nil => intro ys st; rfl
  | cons t ts ih =>
    intro ys st
    by_cases hs : t.kind = TokenKind.StartLoop
    · rw [List.cons_append, openStack_start hs, openStack_start hs, ih]
    · by_cases he : t.kind = TokenKind.EndLoop
      · match st with
        | [] => rw [List.cons_append, openStack_end_nil he, openStack_end_nil he]; rfl
        | p :: st' =>
          rw [List.cons_append, openStack_end_cons he, openStack_end_cons he, ih]
      · rw [List.cons_append, openStack_other hs he, openStack_other hs he, ih]

theorem openStack_split : ∀ (n : Nat) (xs : List Token), xs.length ≤ n →
    ∀ (q : InputPosition) (st0 stf : List InputPosition),
    openStack xs (q :: st0) = some stf →
    (∃ hd, openStack xs [] = some hd ∧ stf = hd ++ q :: st0)
    ∨ (∃ pre u post, xs = pre ++ u :: post ∧ u.kind = TokenKind.EndLoop
        ∧ openStack pre [] = some [] ∧ openStack post st0 = some stf) := by
  intro n
  induction n with
  | zero =>
    intro xs hlen q st0 stf h
    match xs with
    | [] =>
      left
      refine ⟨[], rfl, ?_⟩
      simpa [openStack] using h.symm
    | t :: ts => simp at hlen
  | succ n ih =>
    intro xs hlen q st0 stf h
    match xs with
    | [] =>
      left
      refine ⟨[], rfl, ?_⟩
      simpa [openStack] using h.symm
    | t :: ts =>
      have hlen' : ts.length ≤ n := by simp at hlen; omega
      by_cases hs : t.kind = TokenKind.StartLoop
      · rw [openStack_start hs] at h
        rcases ih ts hlen' t.pos (q :: st0) stf h with ⟨hd, h1, h2⟩ | ⟨pre1, u1, post1, hxs, hu1, hpre1, hpost1⟩
        · left
          refine ⟨hd ++ [t.pos], ?_, ?_⟩
          · rw [openStack_start hs]
            have := openStack_mono ts [] [t.pos] hd h1
            simpa using this
          · simp [h2]
        · have hlp : post1.length ≤ n := by
            have := congrArg List.length hxs
            simp [List.length_append] at this
            omega
          rcases ih post1 hlp q st0 stf hpost1 with ⟨hd, h1, h2⟩ | ⟨pre2, u2, post2, hp1, hu2, hpre2, hpost2⟩
          · left
            refine ⟨hd, ?_, h2⟩
            rw [openStack_start hs, hxs, openStack_append]
            have hm : openStack pre1 [t.pos] = some [t.pos] := by
              simpa using openStack_mono pre1 [] [t.pos] [] hpre1
            rw [hm]
            simpa [openStack_end_cons hu1] using h1
          · right
            refine ⟨t :: pre1 ++ u1 :: pre2, u2, post2, ?_, hu2, ?_, hpost2⟩
            · simp [hxs, hp1]
            · rw [List.cons_append, openStack_start hs, openStack_append]
              have hm : openStack pre1 [t.pos] = some [t.pos] := by
                simpa using openStack_mono pre1 [] [t.pos] [] hpre1
              rw [hm]
              simpa [openStack_end_cons hu1] using hpre2
      · by_cases he : t.kind = TokenKind.EndLoop
        · rw [openStack_end_cons he] at h
          right
          exact ⟨[], t, ts, rfl, he, rfl, h⟩
        · rw [openStack_other hs he] at h
          rcases ih ts hlen' q st0 stf h with ⟨hd, h1, h2⟩ | ⟨pre1, u1, post1, hxs, hu1, hpre1, hpost1⟩
          · left
            exact ⟨hd, by rw [openStack_other hs he]; exact h1, h2⟩
          · right
            refine ⟨t :: pre1, u1, post1, by simp [hxs], hu1, ?_, hpost1⟩
            rw [openStack_other hs he]
            exact hpre1

/-! ## Parser correctness on balanced and unclosed inputs -/

theorem wfList_append (xs ys : List ASTNode) :
    wfList (xs ++ ys) = (wfList xs && wfList ys) := by
  induction xs with
  | nil => simp [wfList]
  | cons n ns ih => simp [wfList, ih, Bool.and_assoc]

theorem parseLoop_closes : ∀ (n : Nat) (pre : List Token), pre.length ≤ n →
    openStack pre [] = some [] → ∀ (u : Token), u.kind = TokenKind.EndLoop →
    ∀ (post : List Token) (sp : InputPosition) (acc : List ASTNode),
    ∃ ops, parseLoop (pre ++ u :: post) sp acc
        = .ok (.mk .Loop sp (some (acc ++ ops)), post)
      ∧ flattenList ops = pre.filterMap tryParseScalar := by
  intro n
  induction n with
  | zero =>
    intro pre hlen _ u hu post sp acc
    match pre with
    | [] =>
      refine ⟨[], ?_, rfl⟩
      rw [List.nil_append, parseLoop_end hu, List.append_nil]
    | t :: ts => simp at hlen
  | succ n ih =>
    intro pre hlen hbal u hu post sp acc
    match pre with
    | [] =>
      refine ⟨[], ?_, rfl⟩
      rw [List.nil_append, parseLoop_end hu, List.append_nil]
    | t :: pre' =>
      have hlen' : pre'.length ≤ n := by simp at hlen; omega
      cases hsc : tryParseScalar t with
      | some op =>
        obtain ⟨hns, hne, hfl, _⟩ := tryParseScalar_some_props hsc
        have hbal' : openStack pre' [] = some [] := by
          rwa [openStack_other hns hne] at hbal
        obtain ⟨ops', heq, hflat⟩ := ih pre' hlen' hbal' u hu post sp (acc ++ [op])
        refine ⟨op :: ops', ?_, ?_⟩
        · rw [List.cons_append, parseLoop_scalar hsc, heq]
          simp
        · rw [flattenList, hfl, hflat, List.filterMap_cons, hsc]
          rfl
      | none =>
        by_cases hs : t.kind = TokenKind.StartLoop
        · have hbal' : openStack pre' [t.pos] = some [] := by
            rwa [openStack_start hs] at hbal
          rcases openStack_split pre'.length pre' le_rfl t.pos [] [] hbal' with
            ⟨hd, _, h2⟩ | ⟨a, v, b, hxs, hv, hba, hbb⟩
          · exact absurd h2 (by simp)
          · have hlab : a.length ≤ n ∧ b.length ≤ n := by
              have := congrArg List.length hxs
              simp only [List.length_append, List.length_cons] at this
              constructor <;> omega
            obtain ⟨ops1, heq1, hflat1⟩ := ih a hlab.1 hba v hv (b ++ u :: post) t.pos []
            have heq1' : parseLoop (pre' ++ u :: post) t.pos []
                = .ok (.mk .Loop t.pos (some ops1), b ++ u :: post) := by
              rw [hxs]
              simpa [List.append_assoc] using heq1
            obtain ⟨ops2, heq2, hflat2⟩ :=
              ih b hlab.2 hbb u hu post sp (acc ++ [ASTNode.mk .Loop t.pos (some ops1)])
            refine ⟨.mk .Loop t.pos (some ops1) :: ops2, ?_, ?_⟩
            · rw [List.cons_append, parseLoop_start_ok hs heq1', heq2]
              simp
            · rw [flattenList]
              have hfl : flattenNode (.mk .Loop t.pos (some ops1)) = flattenList ops1 := rfl
              rw [hfl, hflat1, hflat2, hxs, List.filterMap_cons, hsc,
                List.filterMap_append, List.filterMap_cons,
                tryParseScalar_none (Or.inr (Or.inl hv))]
        · have hne : t.kind ≠ TokenKind.EndLoop := by
            intro he
            rw [openStack_end_nil he] at hbal
            cases hbal
          have hcm := kind_comment_of_none hsc hs hne
          have hbal' : openStack pre' [] = some [] := by
            rwa [openStack_other hs hne] at hbal
          obtain ⟨ops', heq, hflat⟩ := ih pre' hlen' hbal' u hu post sp acc
          refine ⟨ops', ?_, ?_⟩
          · rw [List.cons_append, parseLoop_comment hcm, heq]
          · rw [hflat, List.filterMap_cons, hsc]

theorem parseLoop_unclosed : ∀ (n : Nat) (ts : List Token), ts.length ≤ n →
    ∀ (stf : List InputPosition), openStack ts [] = some stf →
    ∀ (sp : InputPosition) (acc : List ASTNode),
    parseLoop ts sp acc = .error ⟨stf.headD sp, SyntaxErrorKind.UnclosedLoop⟩ := by
  intro n
  induction n with
  | zero =>
    intro ts hlen stf h sp acc
    match ts with
    | [] =>
      obtain rfl : stf = [] := by simpa [openStack] using h.symm
      rw [parseLoop_nil]
      rfl
    | t :: ts => simp at hlen
  | succ n ih =>
    intro ts hlen stf h sp acc
    match ts with
    | [] =>
      obtain rfl : stf = [] := by simpa [openStack] using h.symm
      rw [parseLoop_nil]
      rfl
    | t :: ts' =>
      have hlen' : ts'.length ≤ n := by simp at hlen; omega
      cases hsc : tryParseScalar t with
      | some op =>
        obtain ⟨hns, hne, _, _⟩ := tryParseScalar_some_props hsc
        have h' : openStack ts' [] = some stf := by
          rwa [openStack_other hns hne] at h
        rw [parseLoop_scalar hsc]
        exact ih ts' hlen' stf h' sp (acc ++ [op])
      | none =>
        by_cases hs : t.kind = TokenKind.StartLoop
        · have h' : openStack ts' [t.pos] = some stf := by
            rwa [openStack_start hs] at h
          rcases openStack_split ts'.length ts' le_rfl t.pos [] stf h' with
            ⟨hd, h1, h2⟩ | ⟨pre, u, post, hxs, hu, hpre, hpost⟩
          · have hinner := ih ts' hlen' hd h1 t.pos []
            rw [parseLoop_start_err hs hinner]
            subst h2
            cases hd <;> simp
          · obtain ⟨ops1, heq1, _⟩ :=
              parseLoop_closes pre.length pre le_rfl hpre u hu post t.pos []
            have heq1' : parseLoop ts' t.pos []
                = .ok (.mk .Loop t.pos (some ([] ++ ops1)), post) := by
              rw [hxs]
              exact heq1
            have hlp : post.length ≤ n := by
              have := congrArg List.length hxs
              simp only [List.length_append, List.length_cons] at this
              omega
            rw [parseLoop_start_ok hs heq1']
            exact ih post hlp stf hpost sp _
        · by_cases he : t.kind = TokenKind.EndLoop
          · rw [openStack_end_nil he] at h
            cases h
          · have hcm := kind_comment_of_none hsc hs he
            have h' : openStack ts' [] = some stf := by
              rwa [openStack_other hs he] at h
            rw [parseLoop_comment hcm]
            exact ih ts' hlen' stf h' sp acc

theorem fromTokensAux_balanced : ∀ (n : Nat) (ts : List Token), ts.length ≤ n →
    openStack ts [] = some [] → ∀ (acc : List ASTNode),
    ∃ ops, fromTokensAux ts acc = .ok ⟨acc ++ ops⟩
      ∧ flattenList ops = ts.filterMap tryParseScalar := by
  intro n
  induction n with
  | zero =>
    intro ts hlen _ acc
    match ts with
    | [] =>
      refine ⟨[], ?_, rfl⟩
      rw [fromTokensAux_nil, List.append_nil]
    | t :: ts => simp at hlen
  | succ n ih =>
    intro ts hlen hbal acc
    match ts with
    | [] =>
      refine ⟨[], ?_, rfl⟩
      rw [fromTokensAux_nil, List.append_nil]
    | t :: ts' =>
      have hlen' : ts'.length ≤ n := by simp at hlen; omega
      cases hsc : tryParseScalar t with
      | some op =>
        obtain ⟨hns, hne, hfl, _⟩ := tryParseScalar_some_props hsc
        have hbal' : openStack ts' [] = some [] := by
          rwa [openStack_other hns hne] at hbal
        obtain ⟨ops', heq, hflat⟩ := ih ts' hlen' hbal' (acc ++ [op])
        refine ⟨op :: ops', ?_, ?_⟩
        · rw [fromTokensAux_scalar hsc, heq]
          simp
        · rw [flattenList, hfl, hflat, List.filterMap_cons, hsc]
          rfl
      | none =>
        by_cases hs : t.kind = TokenKind.StartLoop
        · have hbal' : openStack ts' [t.pos] = some [] := by
            rwa [openStack_start hs] at hbal
          rcases openStack_split ts'.length ts' le_rfl t.pos [] [] hbal' with
            ⟨hd, _, h2⟩ | ⟨a, v, b, hxs, hv, hba, hbb⟩
          · exact absurd h2 (by simp)
          · have hlab : a.length ≤ n ∧ b.length ≤ n := by
              have := congrArg List.length hxs
              simp only [List.length_append, List.length_cons] at this
              constructor <;> omega
            obtain ⟨ops1, heq1, hflat1⟩ :=
              parseLoop_closes a.length a le_rfl hba v hv b t.pos []
            have heq1' : parseLoop ts' t.pos []
                = .ok (.mk .Loop t.pos (some ([] ++ ops1)), b) := by
              rw [hxs]
              exact heq1
            obtain ⟨ops2, heq2, hflat2⟩ :=
              ih b hlab.2 hbb (acc ++ [ASTNode.mk .Loop t.pos (some ([] ++ ops1))])
            refine ⟨.mk .Loop t.pos (some ([] ++ ops1)) :: ops2, ?_, ?_⟩
            · rw [fromTokensAux_start_ok hs heq1', heq2]
              simp
            · rw [flattenList]
              have hfl : flattenNode (.mk .Loop t.pos (some ([] ++ ops1)))
                  = flattenList ([] ++ ops1) := rfl
              rw [hfl, List.nil_append, hflat1, hflat2, hxs, List.filterMap_cons, hsc,
                List.filterMap_append, List.filterMap_cons,
                tryParseScalar_none (Or.inr (Or.inl hv))]
        · by_cases he : t.kind = TokenKind.EndLoop
          · rw [openStack_end_nil he] at hbal
            cases hbal
          · have hcm := kind_comment_of_none hsc hs he
            have hbal' : openStack ts' [] = some [] := by
              rwa [openStack_other hs he] at hbal
            obtain ⟨ops', heq, hflat⟩ := ih ts' hlen' hbal' acc
            refine ⟨ops', ?_, ?_⟩
            · rw [fromTokensAux_comment hcm, heq]
            · rw [hflat, List.filterMap_cons, hsc]

theorem fromTokensAux_unclosed : ∀ (n : Nat) (ts : List Token), ts.length ≤ n →
    ∀ (p : InputPosition) (stf : List InputPosition),
    openStack ts [] = some (p :: stf) → ∀ (acc : List ASTNode),
    fromTokensAux ts acc = .error ⟨p, SyntaxErrorKind.UnclosedLoop⟩ := by
  intro n
  induction n with
  | zero =>
    intro ts hlen p stf h acc
    match ts with
    | [] => simp [openStack] at h
    | t :: ts => simp at hlen
  | succ n ih =>
    intro ts hlen p stf h acc
    match ts with
    | [] => simp [openStack] at h
    | t :: ts' =>
      have hlen' : ts'.length ≤ n := by simp at hlen; omega
      cases hsc : tryParseScalar t with
      | some op =>
        obtain ⟨hns, hne, _, _⟩ := tryParseScalar_some_props hsc
        have h' : openStack ts' [] = some (p :: stf) := by
          rwa [openStack_other hns hne] at h
        rw [fromTokensAux_scalar hsc]
        exact ih ts' hlen' p stf h' (acc ++ [op])
      | none =>
        by_cases hs : t.kind = TokenKind.StartLoop
        · have h' : openStack ts' [t.pos] = some (p :: stf) := by
            rwa [openStack_start hs] at h
          rcases openStack_split ts'.length ts' le_rfl t.pos [] (p :: stf) h' with
            ⟨hd, h1, h2⟩ | ⟨pre, u, post, hxs, hu, hpre, hpost⟩
          · have hinner := parseLoop_unclosed ts'.length ts' le_rfl hd h1 t.pos []
            rw [fromTokensAux_start_err hs hinner]
            cases hd with
            | nil =>
              simp only [List.nil_append, List.cons.injEq] at h2
              simp [List.headD, h2.1]
            | cons h0 hd' =>
              simp only [List.cons_append, List.cons.injEq] at h2
              simp [List.headD, h2.1]
          · obtain ⟨ops1, heq1, _⟩ :=
              parseLoop_closes pre.length pre le_rfl hpre u hu post t.pos []
            have heq1' : parseLoop ts' t.pos []
                = .ok (.mk .Loop t.pos (some ([] ++ ops1)), post) := by
              rw [hxs]
              exact heq1
            have hlp : post.length ≤ n := by
              have := congrArg List.length hxs
              simp only [List.length_append, List.length_cons] at this
              omega
            rw [fromTokensAux_start_ok hs heq1']
            exact ih post hlp p stf hpost _
        · by_cases he : t.kind = TokenKind.EndLoop
          · rw [openStack_end_nil he] at h
            cases h
          · have hcm := kind_comment_of_none hsc hs he
            have h' : openStack ts' [] = some (p :: stf) := by
              rwa [openStack_other hs he] at h
            rw [fromTokensAux_comment hcm]
            exact ih ts' hlen' p stf h' acc

theorem parseLoop_wf : ∀ (n : Nat) (ts : List Token), ts.length ≤ n →
    ∀ (sp : InputPosition) (acc : List ASTNode), wfList acc = true →
    ∀ (node : ASTNode) (r : List Token), parseLoop ts sp acc = .ok (node, r) →
    wfNode node = true := by
  intro n
  induction n with
  | zero =>
    intro ts hlen sp acc hacc node r h
    match ts with
    | [] => rw [parseLoop_nil] at h; cases h
    | t :: ts => simp at hlen
  | succ n ih =>
    intro ts hlen sp acc hacc node r h
    match ts with
    | [] => rw [parseLoop_nil] at h; cases h
    | t :: ts' =>
      have hlen' : ts'.length ≤ n := by simp at hlen; omega
      cases hsc : tryParseScalar t with
      | some op =>
        obtain ⟨_, _, _, hwf⟩ := tryParseScalar_some_props hsc
        rw [parseLoop_scalar hsc] at h
        have hacc' : wfList (acc ++ [op]) = true := by
          rw [wfList_append, hacc, Bool.true_and]
          simp [wfList, hwf]
        exact ih ts' hlen' sp (acc ++ [op]) hacc' node r h
      | none =>
        by_cases hs : t.kind = TokenKind.StartLoop
        · cases hp : parseLoop ts' t.pos [] with
          | error e =>
            rw [parseLoop_start_err hs hp] at h
            cases h
          | ok pr =>
            obtain ⟨n1, r1⟩ := pr
            have hwf1 : wfNode n1 = true := ih ts' hlen' t.pos [] rfl n1 r1 hp
            rw [parseLoop_start_ok hs hp] at h
            have hr1 : r1.length ≤ n := le_trans (parseLoop_rest_length hp) hlen'
            have hacc' : wfList (acc ++ [n1]) = true := by
              rw [wfList_append, hacc, Bool.true_and]
              simp [wfList, hwf1]
            exact ih r1 hr1 sp (acc ++ [n1]) hacc' node r h
        · by_cases he : t.kind = TokenKind.EndLoop
          · rw [parseLoop_end he] at h
            simp only [Except.ok.injEq, Prod.mk.injEq] at h
            obtain ⟨h1, h2⟩ := h
            subst h1
            simp [wfNode, hacc]
          · have hcm := kind_comment_of_none hsc hs he
            rw [parseLoop_comment hcm] at h
            exact ih ts' hlen' sp acc hacc node r h

theorem fromTokensAux_wf : ∀ (n : Nat) (ts : List Token), ts.length ≤ n →
    ∀ (acc : List ASTNode), wfList acc = true →
    ∀ (ast : AST), fromTokensAux ts acc = .ok ast → wfList ast.ops = true := by
  intro n
  induction n with
  | zero =>
    intro ts hlen acc hacc ast h
    match ts with
    | [] =>
      rw [fromTokensAux_nil] at h
      cases h
      exact hacc
    | t :: ts => simp at hlen
  | succ n ih =>
    intro ts hlen acc hacc ast h
    match ts with
    | [] =>
      rw [fromTokensAux_nil] at h
      cases h
      exact hacc
    | t :: ts' =>
      have hlen' : ts'.length ≤ n := by simp at hlen; omega
      cases hsc : tryParseScalar t with
      | some op =>
        obtain ⟨_, _, _, hwf⟩ := tryParseScalar_some_props hsc
        rw [fromTokensAux_scalar hsc] at h
        have hacc' : wfList (acc ++ [op]) = true := by
          rw [wfList_append, hacc, Bool.true_and]
          simp [wfList, hwf]
        exact ih ts' hlen' (acc ++ [op]) hacc' ast h
      | none =>
        by_cases hs : t.kind = TokenKind.StartLoop
        · cases hp : parseLoop ts' t.pos [] with
          | error e =>
            rw [fromTokensAux_start_err hs hp] at h
            cases h
          | ok pr =>
            obtain ⟨n1, r1⟩ := pr
            have hwf1 : wfNode n1 = true :=
              parseLoop_wf ts'.length ts' le_rfl t.pos [] rfl n1 r1 hp
            rw [fromTokensAux_start_ok hs hp] at h
            have hr1 : r1.length ≤ n := le_trans (parseLoop_rest_length hp) hlen'
            have hacc' : wfList (acc ++ [n1]) = true := by
              rw [wfList_append, hacc, Bool.true_and]
              simp [wfList, hwf1]
            exact ih r1 hr1 (acc ++ [n1]) hacc' ast h
        · by_cases he : t.kind = TokenKind.EndLoop
          · rw [fromTokensAux_end he] at h
            cases h
          · have hcm := kind_comment_of_none hsc hs he
            rw [fromTokensAux_comment hcm] at h
            exact ih ts' hlen' acc hacc ast h

/-! ## Parser claims (C6, C7, C10) -/

/-- C6 (counterexample): on the token sequence `[[` the parser reports
`UnclosedLoop` at the position of the *innermost* unterminated opening
bracket, (1:2) — not the outermost one at (1:1) as the claim states. -/
theorem c6_counterexample :
    AST.fromTokens [⟨.StartLoop, ⟨1, 1⟩⟩, ⟨.StartLoop, ⟨1, 2⟩⟩]
      = .error ⟨⟨1, 2⟩, SyntaxErrorKind.UnclosedLoop⟩
    ∧ (⟨1, 2⟩ : InputPosition) ≠ ⟨1, 1⟩ := by
  refine ⟨?_, by decide⟩
  have h1 : parseLoop [⟨TokenKind.StartLoop, ⟨1, 2⟩⟩] ⟨1, 1⟩ []
      = .error ⟨⟨1, 2⟩, SyntaxErrorKind.UnclosedLoop⟩ :=
    parseLoop_start_err (t := ⟨.StartLoop, ⟨1, 2⟩⟩) rfl (parseLoop_nil ⟨1, 2⟩ []) ⟨1, 1⟩ []
  unfold AST.fromTokens
  exact fromTokensAux_start_err (t := ⟨.StartLoop, ⟨1, 1⟩⟩) rfl h1 []

/-- C6 (amended): if the bracket scan of the token sequence ends with at
least one bracket still open (and never saw an unmatched closing
bracket), the parser fails with `UnclosedLoop` at the position of the
*innermost* (most recently opened) unterminated opening bracket — the
head of the final scan stack. -/
theorem c6_unclosed_reports_innermost (ts : List Token) (p : InputPosition)
    (stf : List InputPosition) (h : openStack ts [] = some (p :: stf)) :
    AST.fromTokens ts = .error ⟨p, SyntaxErrorKind.UnclosedLoop⟩ := by
  unfold AST.fromTokens
  exact fromTokensAux_unclosed ts.length ts le_rfl p stf h []

/-- Witness for the amended C6 on the tokens of `[[`: the scan leaves
brackets open at (1:1) and (1:2), and the parser reports the innermost,
(1:2). -/
theorem c6_unclosed_witness :
    openStack (tokenize ['[', '[']) [] = some [⟨1, 2⟩, ⟨1, 1⟩]
    ∧ AST.fromTokens (tokenize ['[', '['])
        = .error ⟨⟨1, 2⟩, SyntaxErrorKind.UnclosedLoop⟩ :=
  ⟨by decide,
    c6_unclosed_reports_innermost (tokenize ['[', '[']) ⟨1, 2⟩ [⟨1, 1⟩] (by decide)⟩

/-- C7: for every token sequence with balanced brackets the parser
succeeds, and the in-order sequence of scalar nodes of the resulting
tree (loop wrappers dropped) is exactly the token sequence with bracket
and comment tokens removed (each remaining token turned into its scalar
node). -/
theorem c7_balanced_parse_flatten (ts : List Token) (h : balancedTokens ts) :
    ∃ ast, AST.fromTokens ts = .ok ast
      ∧ flattenList ast.ops = ts.filterMap tryParseScalar := by
  obtain ⟨ops, heq, hflat⟩ := fromTokensAux_balanced ts.length ts le_rfl h []
  refine ⟨⟨ops⟩, ?_, hflat⟩
  unfold AST.fromTokens
  rw [heq]
  simp

/-- Witness for C7 on the tokens of `+[-].`. -/
theorem c7_balanced_witness :
    balancedTokens (tokenize ['+', '[', '-', ']', '.'])
    ∧ ∃ ast, AST.fromTokens (tokenize ['+', '[', '-', ']', '.']) = .ok ast
        ∧ flattenList ast.ops
          = (tokenize ['+', '[', '-', ']', '.']).filterMap tryParseScalar :=
  ⟨by decide, c7_balanced_parse_flatten _ (by decide)⟩

/-- C10: every tree the parser returns satisfies the shape invariant —
`ops` is `some` (a child list) exactly on `Loop` nodes and `none` on the
six scalar kinds, recursively through every loop body. -/
theorem c10_parser_output_wf (ts : List Token) (ast : AST)
    (h : AST.fromTokens ts = .ok ast) : wfList ast.ops = true :=
  fromTokensAux_wf ts.length ts le_rfl [] rfl ast h

/-- Witness for C10 on the token sequence of `[+]`. -/
theorem c10_parser_output_wf_witness :
    AST.fromTokens [⟨.StartLoop, ⟨1, 1⟩⟩, ⟨.IncVal, ⟨1, 2⟩⟩, ⟨.EndLoop, ⟨1, 3⟩⟩]
      = .ok ⟨[.mk .Loop ⟨1, 1⟩ (some [.mk .IncVal ⟨1, 2⟩ none])]⟩
    ∧ wfList (AST.mk [.mk .Loop ⟨1, 1⟩ (some [.mk .IncVal ⟨1, 2⟩ none])]).ops = true := by
  have h1 : parseLoop [⟨.IncVal, ⟨1, 2⟩⟩, ⟨.EndLoop, ⟨1, 3⟩⟩] ⟨1, 1⟩ []
      = .ok (.mk .Loop ⟨1, 1⟩ (some [.mk .IncVal ⟨1, 2⟩ none]), []) := by
    rw [parseLoop_scalar (t := ⟨.IncVal, ⟨1, 2⟩⟩) rfl,
      parseLoop_end (t := ⟨.EndLoop, ⟨1, 3⟩⟩) rfl]
    simp
  have h2 : AST.fromTokens [⟨.StartLoop, ⟨1, 1⟩⟩, ⟨.IncVal, ⟨1, 2⟩⟩, ⟨.EndLoop, ⟨1, 3⟩⟩]
      = .ok ⟨[.mk .Loop ⟨1, 1⟩ (some [.mk .IncVal ⟨1, 2⟩ none])]⟩ := by
    unfold AST.fromTokens
    rw [fromTokensAux_start_ok (t := ⟨.StartLoop, ⟨1, 1⟩⟩) rfl h1, fromTokensAux_nil]
    simp
  exact ⟨h2, c10_parser_output_wf _ _ h2⟩
